import Mathlib

/-!
Verification of the waveform segmentation, continuity, significance-filter and
emitter logic of `sphinxcontrib/yowasp_wavedrom.py`.

A WaveJSON waveform description is embedded as a record with its ordered list
of signal tracks and its (opaque) `config` mapping; a signal track carries its
`wave` token string (a list of characters, `.` being the "repeat previous
state" token) together with its remaining, opaque key/value fields.  Python
strings become `List Char`, dictionaries of opaque values become association
lists of strings, and the fallible external collaborators (renderer, SVG
restyler, raster converter) become `Except`-valued functions.
-/

/-- One signal track of a waveform description: the `wave` token string plus
all other (opaque, preserved verbatim) fields of the track's dictionary. -/
structure SignalTrack where
  wave : List Char
  extra : List (String × String)
  deriving DecidableEq, Repr, Inhabited

/-- A waveform description: the `signal` list, the `config` mapping, and any
further top-level keys of the parsed WaveJSON object (opaque). -/
structure WaveformDescription where
  signal : List SignalTrack
  config : List (String × String)
  topExtra : List (String × String)
  deriving DecidableEq, Repr, Inhabited

/-- `max((len(sig.get("wave", "")) for sig in signals), default=0)`. -/
def maxWaveLength (signals : List SignalTrack) : Nat :=
  (signals.map (fun sig => sig.wave.length)).foldr max 0

/-- Python `s.ljust(n, c)`: right-pad `s` with `c` to length `n`. -/
def ljust (s : List Char) (n : Nat) (c : Char) : List Char :=
  s ++ List.replicate (n - s.length) c

/-- `wave[i*max_length : (i+1)*max_length].ljust(max_length, '.')`. -/
def waveSlice (wave : List Char) (ml i : Nat) : List Char :=
  ljust ((wave.drop (i * ml)).take ml) ml '.'

/-- One raw segment of the splitting loop:
`{"signal": [{**sig, "wave": slice} ...], "config": src.config.copy()}`.
Top-level keys other than `signal`/`config` are not carried over. -/
def buildSegment (src : WaveformDescription) (ml i : Nat) : WaveformDescription :=
  { signal := src.signal.map (fun sig => { sig with wave := waveSlice sig.wave ml i }),
    config := src.config,
    topExtra := [] }

/-- `next((ch for ch in reversed(prev_wave) if ch != '.'), None)`. -/
def lastState (wave : List Char) : Option Char :=
  wave.reverse.find? (fun ch => ch != '.')

/-- `next((c for c in wave if c != "."), None)`. -/
def firstState (wave : List Char) : Option Char :=
  wave.find? (fun ch => ch != '.')

/-- The continuity fix for one track: if the current wave starts with `.` and
the previous wave has a last non-`.` state, replace the leading token. -/
def fixTrack (prevWave wave : List Char) : List Char :=
  match wave with
  | [] => []
  | c :: rest =>
    if c = '.' then
      match lastState prevWave with
      | some s => s :: rest
      | none => c :: rest
    else c :: rest

/-- The continuity fix applied to every track of a segment, the previous
segment read track-by-track at the same position. -/
def fixSegment (prev cur : WaveformDescription) : WaveformDescription :=
  { cur with
    signal := List.zipWith
      (fun prevSig sig => { sig with wave := fixTrack prevSig.wave sig.wave })
      prev.signal cur.signal }

/-- The `for seg_idx in range(1, len(segments))` loop: each segment is fixed
against its predecessor, the predecessor read after its own correction. -/
def continuityLoop (prev : WaveformDescription) :
    List WaveformDescription → List WaveformDescription
  | [] => []
  | cur :: rest =>
    let fixed := fixSegment prev cur
    fixed :: continuityLoop fixed rest

/-- The whole continuity pass over the list of raw segments (index 0 is
never rewritten). -/
def applyContinuity : List WaveformDescription → List WaveformDescription
  | [] => []
  | first :: rest => first :: continuityLoop first rest

/-- `num_segments = (max_wave_length + max_length - 1) // max_length`. -/
def numSegments (src : WaveformDescription) (ml : Nat) : Nat :=
  (maxWaveLength src.signal + ml - 1) / ml

/-- `split_waveform_if_needed(wavedrom_src, max_length)`. -/
def split_waveform_if_needed (src : WaveformDescription) (ml : Nat) :
    List WaveformDescription :=
  if maxWaveLength src.signal ≤ ml then [src]
  else applyContinuity ((List.range (numSegments src ml)).map (buildSegment src ml))

/-- The per-track body of the `is_meaningful_segment` loop (its early
returns become the `Bool` result for this track pair). -/
def trackSignificant (sig prevSig : SignalTrack) : Bool :=
  let wave := sig.wave
  let prevWave := prevSig.wave
  if wave.isEmpty || wave.all (fun c => c == '.') then false
  else if 1 < ((wave.filter (fun c => c != '.')).dedup).length then true
  else
    match firstState wave, lastState prevWave with
    | some f, some l => f != l
    | _, _ => false

/-- `is_meaningful_segment(segment, previous_segment)`. -/
def is_meaningful_segment (segment previous : WaveformDescription) : Bool :=
  (segment.signal.zip previous.signal).any (fun p => trackSignificant p.1 p.2)

/-! ## Emitter model

The three external collaborators of one diagram occurrence — the WaveJSON
renderer, the SVG restyling body of `adjust_svg`, and the SVG-to-PNG
converter — are modelled as `Except`-valued functions; an `Except.error`
stands for the Python exception the corresponding call may raise. -/

structure Collaborators where
  render : WaveformDescription → Except String String
  restyle : String → Except String String
  convert : String → Except String String

/-- `adjust_svg`: the whole body runs inside `try/except Exception`; on an
internal error it logs `Error adjusting SVG: ...` and leaves the file as
last written (here: the unrestyled input). Returns (file contents, logs). -/
def adjust_svg (restyle : String → Except String String) (svg : String) :
    String × List String :=
  match restyle svg with
  | Except.ok styled => (styled, [])
  | Except.error e => (svg, ["Error adjusting SVG: " ++ e])

/-- The per-segment pipeline of both visitors: render, restyle (non-fatal),
raster-convert. Returns the outcome together with accumulated log lines. -/
def processSegment (c : Collaborators) (seg : WaveformDescription) :
    Except String String × List String :=
  match c.render seg with
  | Except.error e => (Except.error e, [])
  | Except.ok svg =>
    let styled := adjust_svg c.restyle svg
    match c.convert styled.1 with
    | Except.error e => (Except.error e, styled.2)
    | Except.ok png => (Except.ok png, styled.2)

/-- What a visitor appends to `self.body`: the HTML visitor appends one
joined block of `<img>` tags, the LaTeX visitor one figure per segment, and
either appends an in-place error marker on failure. -/
inductive Emission where
  | inlineImages (images : List String)
  | figure (image : String)
  | errorMarker (message : String)
  deriving DecidableEq, Repr

/-- Result of one visitor run: the body emissions and the logger lines. -/
structure EmitResult where
  body : List Emission
  logs : List String
  deriving DecidableEq, Repr

/-- The segment loop of `html_visit_wavedrom_diagram`: images accumulate in
`segment_images` and reach the body only after the loop; on the first
failure the body receives only the error marker and the loop aborts. -/
def htmlGo (c : Collaborators) :
    List WaveformDescription → List String → EmitResult
  | [], images => { body := [Emission.inlineImages images], logs := [] }
  | seg :: rest, images =>
    match processSegment c seg with
    | (Except.error e, lg) =>
      { body := [Emission.errorMarker e], logs := lg ++ ["WaveDrom error: " ++ e] }
    | (Except.ok png, lg) =>
      let r := htmlGo c rest (images ++ [png])
      { body := r.body, logs := lg ++ r.logs }

def htmlEmit (c : Collaborators) (segments : List WaveformDescription) : EmitResult :=
  htmlGo c segments []

/-- `idx > 0 and not is_meaningful_segment(segment, segments[idx - 1])`:
the predecessor is the previous list element, whether or not it was itself
skipped; the first segment (no predecessor) is never skipped. -/
def latexSkip (prevOpt : Option WaveformDescription) (seg : WaveformDescription) : Bool :=
  match prevOpt with
  | some prev => !is_meaningful_segment seg prev
  | none => false

/-- The segment loop of `latex_visit_wavedrom_diagram`: skipped segments
emit nothing (`continue`), rendered segments emit a figure immediately, and
the first failure emits the error marker and aborts the loop. -/
def latexGo (c : Collaborators) :
    Option WaveformDescription → List WaveformDescription → EmitResult
  | _, [] => { body := [], logs := [] }
  | prevOpt, seg :: rest =>
    if latexSkip prevOpt seg then latexGo c (some seg) rest
    else
      match processSegment c seg with
      | (Except.error e, lg) =>
        { body := [Emission.errorMarker e], logs := lg ++ ["WaveDrom error: " ++ e] }
      | (Except.ok png, lg) =>
        let r := latexGo c (some seg) rest
        { body := Emission.figure png :: r.body, logs := lg ++ r.logs }

def latexEmit (c : Collaborators) (segments : List WaveformDescription) : EmitResult :=
  latexGo c none segments

/-- `MAX_WAVE_LENGTH = 22`. -/
def MAX_WAVE_LENGTH : Nat := 22

/-- The HTML visitor: width threshold 50, every segment rendered. (For a
single segment the code renders `wavedrom_src` itself, which in that case is
the unique segment, so rendering the segment is the same call.) -/
def html_visit_wavedrom_diagram (c : Collaborators) (src : WaveformDescription) : EmitResult :=
  htmlEmit c (split_waveform_if_needed src 50)

/-- The LaTeX visitor: width threshold `MAX_WAVE_LENGTH`, significance
filter applied to every segment after the first. -/
def latex_visit_wavedrom_diagram (c : Collaborators) (src : WaveformDescription) : EmitResult :=
  latexEmit c (split_waveform_if_needed src MAX_WAVE_LENGTH)

/-- Follows the spec's words for the page-figure policy, to be compared
with the code's loop: the first segment is always kept; every later segment
is kept iff it is significant relative to its immediate predecessor (the
predecessor taken from the segment list, kept or not). -/
def significanceSelectFrom :
    Option WaveformDescription → List WaveformDescription → List WaveformDescription
  | _, [] => []
  | prevOpt, seg :: rest =>
    let keep : Bool :=
      match prevOpt with
      | none => true
      | some prev => is_meaningful_segment seg prev
    if keep then seg :: significanceSelectFrom (some seg) rest
    else significanceSelectFrom (some seg) rest

/-- The page-figure selection started with no predecessor. -/
def pageFigureSelect (segments : List WaveformDescription) : List WaveformDescription :=
  significanceSelectFrom none segments

/-! ## Directive model -/

/-- Modelled from the spec: the relaxed-JSON parser (the external `json5`
collaborator, not part of this repository's sources) is called with
`allow_duplicate_keys=False` and rejects a payload whose object holds a
duplicate key, raising a parse error. The payload is abstracted as its list
of top-level key/value pairs. -/
def json5_loads (pairs : List (String × String)) :
    Except String (List (String × String)) :=
  if (pairs.map Prod.fst).Nodup then Except.ok pairs else Except.error "duplicate key"

/-- The two possible outcomes of `WaveDromDirective.run`: a reported
document error (the diagram is dropped) or a diagram node carrying the
parsed source for the visitors (the only place segmentation is invoked). -/
inductive DirectiveResult where
  | errorNode (message : String)
  | diagramNode (src : List (String × String))
  deriving DecidableEq, Repr

/-- `WaveDromDirective.run` after header stripping: parse the payload; on a
parse error return the reported error node, otherwise the diagram node. -/
def WaveDromDirective_run (pairs : List (String × String)) : DirectiveResult :=
  match json5_loads pairs with
  | Except.error e => DirectiveResult.errorNode ("WaveJSON: " ++ e)
  | Except.ok src => DirectiveResult.diagramNode src

/-! ## Invariant of the produced segments -/

/-- Everything a produced segment preserves from the source: the config
mapping, the number of tracks, the exact wave length `ml`, and every
track's non-`wave` fields. -/
def SegInv (src : WaveformDescription) (ml : Nat) (seg : WaveformDescription) : Prop :=
  seg.config = src.config ∧ seg.signal.length = src.signal.length ∧
    (∀ sig ∈ seg.signal, sig.wave.length = ml) ∧
    ∀ t, t < src.signal.length →
      (seg.signal.getD t default).extra = (src.signal.getD t default).extra

/-! ## Concrete inputs used by the witnesses and the counterexample -/

/-- One track, wave `1....`, with an opaque `name` field and a config. -/
def srcC1 : WaveformDescription :=
  ⟨[⟨['1', '.', '.', '.', '.'], [("name", "clk")]⟩], [("hscale", "2")], []⟩

/-- One track, wave `0101`, plus a shorter track `1`, with opaque fields. -/
def srcC2 : WaveformDescription :=
  ⟨[⟨['0', '1', '0', '1'], [("name", "a")]⟩, ⟨['1'], [("name", "b")]⟩],
    [("skin", "default")], [("head", "h")]⟩

/-- One track whose only non-`.` token sits in the first slice. -/
def srcC10 : WaveformDescription :=
  ⟨[⟨['1', '.', '.', '.', '.', '.'], []⟩], [], []⟩

/-- Collaborators whose restyle step always fails while render and convert
succeed. -/
def c8Bad : Collaborators :=
  { render := fun _ => Except.ok "svg",
    restyle := fun _ => Except.error "boom",
    convert := fun s => Except.ok s }

/-- A segment accepted by `c8Bad.render`. -/
def c8Seg : WaveformDescription := ⟨[⟨['1'], []⟩], [], []⟩

/-- Collaborators that fail to render the empty-signal description, render
everything else to `svg`, always fail to restyle, and convert verbatim. -/
def c8C : Collaborators :=
  { render := fun s => if s.signal.isEmpty then Except.error "renderfail" else Except.ok "svg",
    restyle := fun _ => Except.error "stylefail",
    convert := fun s => Except.ok s }

def c8SegFail : WaveformDescription := ⟨[], [], []⟩

def c8SegOk : WaveformDescription := ⟨[⟨['1'], []⟩], [], []⟩

/-- Collaborators that always succeed, rendering every segment to `S`. -/
def c5Collab : Collaborators :=
  { render := fun _ => Except.ok "S",
    restyle := fun s => Except.ok s,
    convert := fun s => Except.ok s }

/-- Two segments whose second is a pure continuation of the first. -/
def c5SegA : WaveformDescription := ⟨[⟨['1', '1', '1'], []⟩], [], []⟩

def c5SegB : WaveformDescription := ⟨[⟨['.', '.', '.'], []⟩], [], []⟩

/-- A payload whose object repeats the key `signal`. -/
def c9Pairs : List (String × String) := [("signal", "a"), ("signal", "b")]

/-- The first segment `split_waveform_if_needed srcC1 3` produces. -/
def c7Seg : WaveformDescription :=
  ⟨[⟨['1', '.', '.'], [("name", "clk")]⟩], [("hscale", "2")], []⟩

/-! ## Generic list lemmas -/

theorem listGetD_map {α β : Type} (f : α → β) (l : List α) (i : Nat)
    (h : i < l.length) (d : α) (d2 : β) :
    (l.map f).getD i d2 = f (l.getD i d) := by
  rw [List.getD_eq_getElem _ _ (by simpa using h), List.getD_eq_getElem _ _ h,
    List.getElem_map]

theorem listGetD_zipWith {α β γ : Type} (f : α → β → γ) (a : List α) (b : List β)
    (i : Nat) (ha : i < a.length) (hb : i < b.length) (da : α) (db : β) (dc : γ) :
    (List.zipWith f a b).getD i dc = f (a.getD i da) (b.getD i db) := by
  induction a generalizing b i with
  | nil => simp at ha
  | cons x xs ih =>
    cases b with
    | nil => simp at hb
    | cons y ys =>
      cases i with
      | zero => simp [List.zipWith]
      | succ k =>
        simp only [List.zipWith, List.getD_cons_succ]
        exact ih ys k (by simpa using ha) (by simpa using hb)

theorem mem_zipWith_decomp {α β γ : Type} {f : α → β → γ} :
    ∀ {a : List α} {b : List β} {x : γ}, x ∈ List.zipWith f a b →
      ∃ y z, y ∈ a ∧ z ∈ b ∧ x = f y z := by
  intro a
  induction a with
  | nil => intro b x hx; simp [List.zipWith] at hx
  | cons p ps ih =>
    intro b x hx
    cases b with
    | nil => simp [List.zipWith] at hx
    | cons q qs =>
      simp only [List.zipWith, List.mem_cons] at hx
      rcases hx with h | h
      · exact ⟨p, q, by simp, by simp, h⟩
      · obtain ⟨y, z, hy, hz, he⟩ := ih h
        exact ⟨y, z, by simp [hy], by simp [hz], he⟩

theorem listGetD_mem {α : Type} [Inhabited α] (l : List α) (i : Nat)
    (h : i < l.length) : l.getD i default ∈ l := by
  rw [List.getD_eq_getElem _ _ h]
  exact List.getElem_mem h

theorem rangeMap_getD {α : Type} [Inhabited α] (f : Nat → α) (n i : Nat)
    (h : i < n) : ((List.range n).map f).getD i default = f i := by
  rw [List.getD_eq_getElem _ _ (by simpa using h)]
  simp

theorem foldrMax_le {l : List Nat} {m : Nat} (h : ∀ x ∈ l, x ≤ m) :
    l.foldr max 0 ≤ m := by
  induction l with
  | nil => simp
  | cons a t ih =>
    simp only [List.foldr_cons]
    exact max_le (h a (by simp)) (ih (fun x hx => h x (by simp [hx])))

/-! ## Continuity-pass structure lemmas -/

theorem length_continuityLoop :
    ∀ (l : List WaveformDescription) (prev), (continuityLoop prev l).length = l.length := by
  intro l
  induction l with
  | nil => intro prev; rfl
  | cons c rest ih => intro prev; simp [continuityLoop, ih]

theorem length_applyContinuity (l : List WaveformDescription) :
    (applyContinuity l).length = l.length := by
  cases l with
  | nil => rfl
  | cons a rest => simp [applyContinuity, length_continuityLoop]

theorem contOut_getD_succ :
    ∀ (l : List WaveformDescription) (prev : WaveformDescription) (i : Nat),
      i < l.length →
      (prev :: continuityLoop prev l).getD (i + 1) default =
        fixSegment ((prev :: continuityLoop prev l).getD i default) (l.getD i default) := by
  intro l
  induction l with
  | nil => intro prev i h; simp at h
  | cons c rest ih =>
    intro prev i h
    cases i with
    | zero => simp [continuityLoop]
    | succ k =>
      have hk : k < rest.length := by simpa using h
      simpa [continuityLoop, List.getD_cons_succ] using ih (fixSegment prev c) k hk

theorem applyContinuity_getD_succ (l : List WaveformDescription) (i : Nat)
    (h : i + 1 < l.length) :
    (applyContinuity l).getD (i + 1) default =
      fixSegment ((applyContinuity l).getD i default) (l.getD (i + 1) default) := by
  cases l with
  | nil => simp at h
  | cons first rest =>
    have hi : i < rest.length := by simpa using h
    simpa [applyContinuity, List.getD_cons_succ] using contOut_getD_succ rest first i hi

theorem applyContinuity_getD_zero (l : List WaveformDescription) (h : l ≠ []) :
    (applyContinuity l).getD 0 default = l.getD 0 default := by
  cases l with
  | nil => exact absurd rfl h
  | cons first rest => simp [applyContinuity]

theorem continuityLoop_invariant (P : WaveformDescription → Prop)
    (hfix : ∀ p q, P p → P q → P (fixSegment p q)) :
    ∀ (l : List WaveformDescription) (prev), P prev → (∀ x ∈ l, P x) →
      ∀ y ∈ continuityLoop prev l, P y := by
  intro l
  induction l with
  | nil => intro prev _ _ y hy; simp [continuityLoop] at hy
  | cons c rest ih =>
    intro prev hprev hl y hy
    simp only [continuityLoop, List.mem_cons] at hy
    have hc : P c := hl c (by simp)
    have hfc : P (fixSegment prev c) := hfix prev c hprev hc
    rcases hy with h | h
    · exact h ▸ hfc
    · exact ih (fixSegment prev c) hfc (fun x hx => hl x (by simp [hx])) y h

theorem applyContinuity_invariant (P : WaveformDescription → Prop)
    (hfix : ∀ p q, P p → P q → P (fixSegment p q))
    (l : List WaveformDescription) (hl : ∀ x ∈ l, P x) :
    ∀ y ∈ applyContinuity l, P y := by
  cases l with
  | nil => intro y hy; simp [applyContinuity] at hy
  | cons first rest =>
    intro y hy
    simp only [applyContinuity, List.mem_cons] at hy
    have hfirst : P first := hl first (by simp)
    rcases hy with h | h
    · exact h ▸ hfirst
    · exact continuityLoop_invariant P hfix rest first hfirst
        (fun x hx => hl x (by simp [hx])) y h

/-! ## Track-level lemmas -/

theorem fixTrack_length (pw w : List Char) : (fixTrack pw w).length = w.length := by
  cases w with
  | nil => rfl
  | cons c rest =>
    by_cases hc : c = '.'
    · cases hls : lastState pw <;> simp [fixTrack, hc, hls]
    · simp [fixTrack, hc]

theorem fixTrack_getD_succ (pw w : List Char) (k : Nat) (d : Char) :
    (fixTrack pw w).getD (k + 1) d = w.getD (k + 1) d := by
  cases w with
  | nil => rfl
  | cons c rest =>
    by_cases hc : c = '.'
    · cases hls : lastState pw <;> simp [fixTrack, hc, hls]
    · simp [fixTrack, hc]

/-- The continuity fix for one track, phrased the way the spec states it:
if the wave begins with the repeat token and a last non-repeat state exists
in the previous wave, only the leading token is replaced. -/
theorem fixTrack_eq_spec (pw w : List Char) :
    fixTrack pw w =
      match lastState pw with
      | some s => if w.headD 'x' = '.' then s :: w.tail else w
      | none => w := by
  cases w with
  | nil => cases hls : lastState pw <;> simp [fixTrack, hls]
  | cons c rest =>
    by_cases hc : c = '.'
    · cases hls : lastState pw <;> simp [fixTrack, hc, hls]
    · cases hls : lastState pw <;> simp [fixTrack, hc, hls]

theorem ljust_length {s : List Char} {n : Nat} (h : s.length ≤ n) (c : Char) :
    (ljust s n c).length = n := by
  simp only [ljust, List.length_append, List.length_replicate]
  omega

theorem waveSlice_length (w : List Char) (ml i : Nat) :
    (waveSlice w ml i).length = ml := by
  have h : ((w.drop (i * ml)).take ml).length ≤ ml := by
    simp only [List.length_take]
    omega
  exact ljust_length h '.'

theorem waveSlice_getD_pad (w : List Char) (ml i k : Nat)
    (hk1 : ((w.drop (i * ml)).take ml).length ≤ k) (hk2 : k < ml) :
    (waveSlice w ml i).getD k 'x' = '.' := by
  unfold waveSlice ljust
  rw [List.getD_append_right _ _ _ _ hk1]
  have hlt : k - ((w.drop (i * ml)).take ml).length <
      (List.replicate (ml - ((w.drop (i * ml)).take ml).length) '.').length := by
    simp only [List.length_replicate]
    omega
  rw [List.getD_eq_getElem _ _ hlt, List.getElem_replicate]

theorem lastState_of_any {pw : List Char}
    (h : pw.any (fun c => c != '.') = true) :
    ∃ s, lastState pw = some s ∧ s ≠ '.' := by
  have hex : ∃ x ∈ pw.reverse, (fun c => c != '.') x = true := by
    rw [List.any_eq_true] at h
    obtain ⟨x, hx, hpx⟩ := h
    exact ⟨x, List.mem_reverse.mpr hx, hpx⟩
  have hsome : (pw.reverse.find? (fun c => c != '.')).isSome = true :=
    List.find?_isSome.mpr hex
  obtain ⟨s, hs⟩ := Option.isSome_iff_exists.mp hsome
  refine ⟨s, hs, ?_⟩
  have := List.find?_some hs
  simpa [bne_iff_ne] using this

theorem fixTrack_propagates {pw w : List Char} (hw : w ≠ [])
    (hp : pw.any (fun c => c != '.') = true) :
    (fixTrack pw w).headD '.' ≠ '.' ∧
      (fixTrack pw w).any (fun c => c != '.') = true := by
  obtain ⟨s, hs, hsne⟩ := lastState_of_any hp
  cases w with
  | nil => exact absurd rfl hw
  | cons c rest =>
    by_cases hc : c = '.'
    · refine ⟨?_, ?_⟩ <;> simp [fixTrack, hc, hs, hsne, bne_iff_ne]
    · refine ⟨?_, ?_⟩ <;> simp [fixTrack, hc, bne_iff_ne]

/-! ## Segment-level invariants -/

theorem fixSegment_waveLength {ml : Nat} {p q : WaveformDescription}
    (hq : ∀ sig ∈ q.signal, sig.wave.length = ml) :
    ∀ sig ∈ (fixSegment p q).signal, sig.wave.length = ml := by
  intro sig hsig
  obtain ⟨y, z, _, hz, he⟩ := mem_zipWith_decomp hsig
  subst he
  simp [fixTrack_length, hq z hz]

theorem buildSegment_waveLength (src : WaveformDescription) (ml i : Nat) :
    ∀ sig ∈ (buildSegment src ml i).signal, sig.wave.length = ml := by
  intro sig hsig
  simp only [buildSegment, List.mem_map] at hsig
  obtain ⟨a, _, rfl⟩ := hsig
  simp [waveSlice_length]

theorem buildSegment_SegInv (src : WaveformDescription) (ml i : Nat) :
    SegInv src ml (buildSegment src ml i) := by
  refine ⟨rfl, by simp [buildSegment], buildSegment_waveLength src ml i, ?_⟩
  intro t ht
  rw [show (buildSegment src ml i).signal =
      src.signal.map (fun sig => { sig with wave := waveSlice sig.wave ml i }) from rfl,
    listGetD_map _ _ _ ht default]

theorem fixSegment_SegInv {src : WaveformDescription} {ml : Nat}
    {p q : WaveformDescription} (hp : SegInv src ml p) (hq : SegInv src ml q) :
    SegInv src ml (fixSegment p q) := by
  obtain ⟨hpc, hpl, hpw, hpe⟩ := hp
  obtain ⟨hqc, hql, hqw, hqe⟩ := hq
  refine ⟨hqc, ?_, fixSegment_waveLength hqw, ?_⟩
  · simp [fixSegment, List.length_zipWith, hpl, hql]
  · intro t ht
    rw [show (fixSegment p q).signal = List.zipWith
        (fun prevSig sig => { sig with wave := fixTrack prevSig.wave sig.wave })
        p.signal q.signal from rfl,
      listGetD_zipWith _ _ _ t (by omega) (by omega) default default default]
    exact hqe t ht

theorem split_SegInv (src : WaveformDescription) (ml : Nat)
    (hgt : ¬ maxWaveLength src.signal ≤ ml) :
    ∀ seg ∈ split_waveform_if_needed src ml, SegInv src ml seg := by
  intro seg hseg
  rw [split_waveform_if_needed, if_neg hgt] at hseg
  refine applyContinuity_invariant (SegInv src ml)
    (fun p q hp hq => fixSegment_SegInv hp hq) _ ?_ seg hseg
  intro x hx
  simp only [List.mem_map, List.mem_range] at hx
  obtain ⟨k, _, rfl⟩ := hx
  exact buildSegment_SegInv src ml k

theorem split_length (src : WaveformDescription) (ml : Nat)
    (hgt : ¬ maxWaveLength src.signal ≤ ml) :
    (split_waveform_if_needed src ml).length = numSegments src ml := by
  rw [split_waveform_if_needed, if_neg hgt, length_applyContinuity]
  simp

/-- Segment `k+1` of the split, at track `t`: the continuity fix of the raw
slice against segment `k` as already corrected (the Python loop reads
`segments[seg_idx - 1]` after that entry's own rewrite). -/
theorem split_track_step (src : WaveformDescription) (ml k t : Nat)
    (hgt : ¬ maxWaveLength src.signal ≤ ml)
    (hk : k + 1 < (split_waveform_if_needed src ml).length)
    (ht : t < src.signal.length) :
    (((split_waveform_if_needed src ml).getD (k + 1) default).signal.getD t default).wave =
      fixTrack
        ((((split_waveform_if_needed src ml).getD k default).signal.getD t default).wave)
        (waveSlice ((src.signal.getD t default).wave) ml (k + 1)) := by
  have hout : split_waveform_if_needed src ml =
      applyContinuity ((List.range (numSegments src ml)).map (buildSegment src ml)) := by
    rw [split_waveform_if_needed, if_neg hgt]
  have hlen : (split_waveform_if_needed src ml).length = numSegments src ml :=
    split_length src ml hgt
  have hkn : k + 1 < numSegments src ml := hlen ▸ hk
  have hraw : ((List.range (numSegments src ml)).map (buildSegment src ml)).getD
      (k + 1) default = buildSegment src ml (k + 1) := rangeMap_getD _ _ _ hkn
  have hsucc : (split_waveform_if_needed src ml).getD (k + 1) default =
      fixSegment ((split_waveform_if_needed src ml).getD k default)
        (buildSegment src ml (k + 1)) := by
    rw [hout, applyContinuity_getD_succ _ k (by simpa using hkn), hraw]
  have hinv : SegInv src ml ((split_waveform_if_needed src ml).getD k default) :=
    split_SegInv src ml hgt _ (listGetD_mem _ _ (by omega))
  obtain ⟨-, hlen2, -, -⟩ := hinv
  rw [hsucc]
  have hBsig : (buildSegment src ml (k + 1)).signal.getD t default =
      { src.signal.getD t default with
        wave := waveSlice (src.signal.getD t default).wave ml (k + 1) } := by
    rw [show (buildSegment src ml (k + 1)).signal =
        src.signal.map (fun sig => { sig with wave := waveSlice sig.wave ml (k + 1) })
        from rfl, listGetD_map _ _ _ ht default]
  rw [show (fixSegment ((split_waveform_if_needed src ml).getD k default)
        (buildSegment src ml (k + 1))).signal = List.zipWith
        (fun prevSig sig => { sig with wave := fixTrack prevSig.wave sig.wave })
        ((split_waveform_if_needed src ml).getD k default).signal
        (buildSegment src ml (k + 1)).signal from rfl,
    listGetD_zipWith _ _ _ t (by omega) (by simpa [buildSegment] using ht)
      default default default, hBsig]

/-- Segment `0` of the split at track `t` is the raw slice: the continuity
pass never rewrites the first segment. -/
theorem split_track_zero (src : WaveformDescription) (ml t : Nat)
    (hml : 0 < ml) (hgt : ¬ maxWaveLength src.signal ≤ ml)
    (ht : t < src.signal.length) :
    (((split_waveform_if_needed src ml).getD 0 default).signal.getD t default).wave =
      waveSlice ((src.signal.getD t default).wave) ml 0 := by
  have hns : 0 < numSegments src ml := by
    unfold numSegments
    rw [Nat.lt_iff_add_one_le, Nat.one_le_div_iff hml]
    omega
  have hne : (List.range (numSegments src ml)).map (buildSegment src ml) ≠ [] := by
    have : 0 < ((List.range (numSegments src ml)).map (buildSegment src ml)).length := by
      simpa using hns
    exact List.ne_nil_of_length_pos this
  have hzero : (split_waveform_if_needed src ml).getD 0 default =
      buildSegment src ml 0 := by
    rw [split_waveform_if_needed, if_neg hgt, applyContinuity_getD_zero _ hne,
      rangeMap_getD _ _ _ hns]
  rw [hzero]
  rw [show (buildSegment src ml 0).signal =
      src.signal.map (fun sig => { sig with wave := waveSlice sig.wave ml 0 })
      from rfl, listGetD_map _ _ _ ht default]

/-! ## Claims -/

/-- C6 (small-input identity): a description whose maximum wave length is at
most `max_length` is returned as the one-element list holding the source
unchanged; in particular a description with zero tracks (maximum length 0)
is returned as `[source]`. -/
theorem c6_small_input_identity (src : WaveformDescription) (ml : Nat)
    (hle : maxWaveLength src.signal ≤ ml) :
    split_waveform_if_needed src ml = [src] := by
  simp [split_waveform_if_needed, hle]

/-- Witness for C6 at a zero-track description and `max_length = 5`. -/
theorem c6_small_input_identity_witness :
    maxWaveLength (WaveformDescription.mk [] [] []).signal ≤ 5 ∧
      split_waveform_if_needed (WaveformDescription.mk [] [] []) 5 =
        [WaveformDescription.mk [] [] []] :=
  ⟨by decide, c6_small_input_identity (WaveformDescription.mk [] [] []) 5 (by decide)⟩

/-- C2 (segment shape): when the maximum wave length exceeds
`max_length > 0`, the split produces exactly
`ceil(total_length / max_length) = (total_length + max_length - 1) / max_length`
segments; every track of every produced segment has wave length exactly
`max_length`; and every position of the `.`-padding a short slice received
(other than a leading token the continuity pass may rewrite) holds `.`. -/
theorem c2_segment_shape (src : WaveformDescription) (ml i t k : Nat)
    (hml : 0 < ml) (hgt : ml < maxWaveLength src.signal)
    (hi : i < (split_waveform_if_needed src ml).length)
    (ht : t < src.signal.length) :
    (split_waveform_if_needed src ml).length =
      (maxWaveLength src.signal + ml - 1) / ml
    ∧ (((split_waveform_if_needed src ml).getD i default).signal.getD t
        default).wave.length = ml
    ∧ ((((src.signal.getD t default).wave.drop (i * ml)).take ml).length ≤ k →
        0 < k → k < ml →
        (((split_waveform_if_needed src ml).getD i default).signal.getD t
          default).wave.getD k 'x' = '.') := by
  have hgt' : ¬ maxWaveLength src.signal ≤ ml := by omega
  have hinv := split_SegInv src ml hgt' _ (listGetD_mem _ _ hi)
  obtain ⟨-, hlen2, hw, -⟩ := hinv
  refine ⟨split_length src ml hgt', ?_, ?_⟩
  · exact hw _ (listGetD_mem _ _ (by omega))
  · intro hk1 hk0 hk2
    cases i with
    | zero =>
      rw [split_track_zero src ml t hml hgt' ht]
      exact waveSlice_getD_pad _ _ _ _ hk1 hk2
    | succ m =>
      rw [split_track_step src ml m t hgt' hi ht]
      cases k with
      | zero => omega
      | succ n =>
        rw [fixTrack_getD_succ]
        exact waveSlice_getD_pad _ _ _ _ hk1 hk2

/-- Witness for C2 at `srcC2` (`total_length = 4`), `max_length = 3`,
segment 1, track 1 (whose slice is empty and fully padded), position 1. -/
theorem c2_segment_shape_witness :
    (0 < 3 ∧ 3 < maxWaveLength srcC2.signal ∧
      1 < (split_waveform_if_needed srcC2 3).length ∧ 1 < srcC2.signal.length) ∧
    ((split_waveform_if_needed srcC2 3).length = (maxWaveLength srcC2.signal + 3 - 1) / 3
     ∧ (((split_waveform_if_needed srcC2 3).getD 1 default).signal.getD 1
          default).wave.length = 3
     ∧ ((((srcC2.signal.getD 1 default).wave.drop (1 * 3)).take 3).length ≤ 1 →
          0 < 1 → 1 < 3 →
          (((split_waveform_if_needed srcC2 3).getD 1 default).signal.getD 1
            default).wave.getD 1 'x' = '.')) :=
  ⟨by decide, c2_segment_shape srcC2 3 1 1 1 (by decide) (by decide) (by decide) (by decide)⟩

/-- C1 (continuity rule): for every segment index `i ≥ 1` and track `t`, the
produced wave is the raw padded slice, except that when the slice begins
with the repeat token `.` and the already-corrected segment `i-1` has a last
non-`.` token, only the leading token is replaced by it; when segment `i-1`
holds no non-`.` token the leading `.` is left as-is. -/
theorem c1_continuity_rule (src : WaveformDescription) (ml i t : Nat)
    (hml : 0 < ml) (h1 : 1 ≤ i)
    (hi : i < (split_waveform_if_needed src ml).length)
    (ht : t < src.signal.length) :
    (((split_waveform_if_needed src ml).getD i default).signal.getD t default).wave =
      match lastState ((((split_waveform_if_needed src ml).getD (i - 1)
          default).signal.getD t default).wave) with
      | some s =>
        if (waveSlice ((src.signal.getD t default).wave) ml i).headD 'x' = '.' then
          s :: (waveSlice ((src.signal.getD t default).wave) ml i).tail
        else waveSlice ((src.signal.getD t default).wave) ml i
      | none => waveSlice ((src.signal.getD t default).wave) ml i := by
  by_cases hle : maxWaveLength src.signal ≤ ml
  · exfalso
    rw [split_waveform_if_needed, if_pos hle] at hi
    simp at hi
    omega
  · obtain ⟨m, rfl⟩ : ∃ m, i = m + 1 := ⟨i - 1, by omega⟩
    rw [split_track_step src ml m t hle hi ht]
    simp only [Nat.add_sub_cancel]
    exact fixTrack_eq_spec _ _

/-- Witness for C1 at `srcC1` (wave `1....`), `max_length = 3`, segment 1,
track 0: the slice `...` becomes `1..`. -/
theorem c1_continuity_rule_witness :
    (0 < 3 ∧ 1 ≤ 1 ∧ 1 < (split_waveform_if_needed srcC1 3).length ∧
      0 < srcC1.signal.length) ∧
    (((split_waveform_if_needed srcC1 3).getD 1 default).signal.getD 0 default).wave =
      (match lastState ((((split_waveform_if_needed srcC1 3).getD (1 - 1)
          default).signal.getD 0 default).wave) with
      | some s =>
        if (waveSlice ((srcC1.signal.getD 0 default).wave) 3 1).headD 'x' = '.' then
          s :: (waveSlice ((srcC1.signal.getD 0 default).wave) 3 1).tail
        else waveSlice ((srcC1.signal.getD 0 default).wave) 3 1
      | none => waveSlice ((srcC1.signal.getD 0 default).wave) 3 1) :=
  ⟨by decide, c1_continuity_rule srcC1 3 1 0 (by decide) (by decide) (by decide) (by decide)⟩

/-- C10 (continuity cascades): because the continuity pass walks the
segments in ascending order and reads each predecessor after its own
correction, a non-`.` token in any earlier segment `j < i` of a track makes
segment `i` of that track begin with a non-`.` token, even across
intervening all-`.` slices. -/
theorem c10_continuity_cascades (src : WaveformDescription) (ml i j t : Nat)
    (hml : 0 < ml) (h1 : 1 ≤ i)
    (hi : i < (split_waveform_if_needed src ml).length)
    (hj : j < i) (ht : t < src.signal.length)
    (hne : ((((split_waveform_if_needed src ml).getD j default).signal.getD t
        default).wave).any (fun c => c != '.') = true) :
    ((((split_waveform_if_needed src ml).getD i default).signal.getD t
        default).wave).headD '.' ≠ '.' := by
  by_cases hle : maxWaveLength src.signal ≤ ml
  · exfalso
    rw [split_waveform_if_needed, if_pos hle] at hi
    simp at hi
    omega
  · have hslice_ne : ∀ m : Nat,
        waveSlice ((src.signal.getD t default).wave) ml (m + 1) ≠ [] := by
      intro m hnil
      have hlen := waveSlice_length ((src.signal.getD t default).wave) ml (m + 1)
      rw [hnil] at hlen
      simp at hlen
      omega
    have step : ∀ m : Nat, m + 1 < (split_waveform_if_needed src ml).length →
        ((((split_waveform_if_needed src ml).getD m default).signal.getD t
          default).wave).any (fun c => c != '.') = true →
        ((((split_waveform_if_needed src ml).getD (m + 1) default).signal.getD t
          default).wave).headD '.' ≠ '.' ∧
        ((((split_waveform_if_needed src ml).getD (m + 1) default).signal.getD t
          default).wave).any (fun c => c != '.') = true := by
      intro m hm hany
      rw [split_track_step src ml m t hle hm ht]
      exact fixTrack_propagates (hslice_ne m) hany
    have climb : ∀ d : Nat, j + d < (split_waveform_if_needed src ml).length →
        ((((split_waveform_if_needed src ml).getD (j + d) default).signal.getD t
          default).wave).any (fun c => c != '.') = true := by
      intro d
      induction d with
      | zero => intro _; simpa using hne
      | succ n ihn =>
        intro hd
        exact (step (j + n) (by omega) (ihn (by omega))).2
    obtain ⟨m, rfl⟩ : ∃ m, i = m + 1 := ⟨i - 1, by omega⟩
    have hanyprev := climb (m - j) (by omega)
    have hjm : j + (m - j) = m := by omega
    rw [hjm] at hanyprev
    exact (step m hi hanyprev).1

/-- Witness for C10 at `srcC10` (wave `1.....`), `max_length = 2`: the token
`1` of segment 0 reaches the head of segment 2 across the all-`.` slice of
segment 1. -/
theorem c10_continuity_cascades_witness :
    (0 < 2 ∧ 1 ≤ 2 ∧ 2 < (split_waveform_if_needed srcC10 2).length ∧ 0 < 2 ∧
      0 < srcC10.signal.length ∧
      ((((split_waveform_if_needed srcC10 2).getD 0 default).signal.getD 0
        default).wave).any (fun c => c != '.') = true) ∧
    ((((split_waveform_if_needed srcC10 2).getD 2 default).signal.getD 0
        default).wave).headD '.' ≠ '.' :=
  ⟨by decide, c10_continuity_cascades srcC10 2 2 0 0 (by decide) (by decide)
    (by decide) (by decide) (by decide) (by decide)⟩

/-- C4 (field preservation / purity): splitting is a pure function of its
input (the embedding is referentially transparent by construction, matching
the code, which builds fresh dictionaries for every produced segment and
rebinds only their own `wave` keys); every produced segment carries the
source's `config`, the same number of tracks, and every track's non-`wave`
fields unchanged. -/
theorem c4_field_preservation (src : WaveformDescription) (ml i t : Nat)
    (hml : 0 < ml)
    (hi : i < (split_waveform_if_needed src ml).length)
    (ht : t < src.signal.length) :
    ((split_waveform_if_needed src ml).getD i default).config = src.config
    ∧ ((split_waveform_if_needed src ml).getD i default).signal.length =
        src.signal.length
    ∧ (((split_waveform_if_needed src ml).getD i default).signal.getD t
        default).extra = (src.signal.getD t default).extra := by
  by_cases hle : maxWaveLength src.signal ≤ ml
  · rw [split_waveform_if_needed, if_pos hle] at hi ⊢
    simp only [List.length_singleton] at hi
    have hz : i = 0 := by omega
    subst hz
    exact ⟨rfl, rfl, rfl⟩
  · have hinv := split_SegInv src ml hle _ (listGetD_mem _ _ hi)
    obtain ⟨h1, h2, -, h4⟩ := hinv
    exact ⟨h1, h2, h4 t ht⟩

/-- Witness for C4 at `srcC2`, `max_length = 3`, segment 1, track 0. -/
theorem c4_field_preservation_witness :
    (0 < 3 ∧ 1 < (split_waveform_if_needed srcC2 3).length ∧
      0 < srcC2.signal.length) ∧
    (((split_waveform_if_needed srcC2 3).getD 1 default).config = srcC2.config
     ∧ ((split_waveform_if_needed srcC2 3).getD 1 default).signal.length =
        srcC2.signal.length
     ∧ (((split_waveform_if_needed srcC2 3).getD 1 default).signal.getD 0
        default).extra = (srcC2.signal.getD 0 default).extra) :=
  ⟨by decide, c4_field_preservation srcC2 3 1 0 (by decide) (by decide) (by decide)⟩

/-- C7 (idempotence): every segment the split produces is itself returned
unchanged, as a single segment, when split again with the same
`max_length`. -/
theorem c7_idempotence (w : WaveformDescription) (ml : Nat) (hml : 0 < ml)
    (s : WaveformDescription) (hs : s ∈ split_waveform_if_needed w ml) :
    split_waveform_if_needed s ml = [s] := by
  by_cases hle : maxWaveLength w.signal ≤ ml
  · rw [split_waveform_if_needed, if_pos hle] at hs
    simp only [List.mem_singleton] at hs
    subst hs
    rw [split_waveform_if_needed, if_pos hle]
  · have hinv := split_SegInv w ml hle s hs
    obtain ⟨-, -, hw, -⟩ := hinv
    have hmax : maxWaveLength s.signal ≤ ml := by
      unfold maxWaveLength
      apply foldrMax_le
      intro x hx
      simp only [List.mem_map] at hx
      obtain ⟨sig, hsig, rfl⟩ := hx
      exact le_of_eq (hw sig hsig)
    rw [split_waveform_if_needed, if_pos hmax]

/-- Witness for C7 at `srcC1`, `max_length = 3`, on the produced first
segment `c7Seg`. -/
theorem c7_idempotence_witness :
    (0 < 3 ∧ c7Seg ∈ split_waveform_if_needed srcC1 3) ∧
      split_waveform_if_needed c7Seg 3 = [c7Seg] :=
  ⟨by decide, c7_idempotence srcC1 3 (by decide) c7Seg (by decide)⟩

/-- Positional reading of `any` over a `zip` of two lists. -/
theorem any_zip_getD {α β : Type} [Inhabited α] [Inhabited β] (p : α × β → Bool) :
    ∀ (a : List α) (b : List β),
      ((a.zip b).any p = true ↔
        ∃ i, i < a.length ∧ i < b.length ∧
          p (a.getD i default, b.getD i default) = true) := by
  intro a
  induction a with
  | nil => intro b; simp
  | cons x xs ih =>
    intro b
    cases b with
    | nil => simp
    | cons y ys =>
      simp only [List.zip_cons_cons, List.any_cons, Bool.or_eq_true, ih ys]
      constructor
      · rintro (h | ⟨i, h1, h2, h3⟩)
        · exact ⟨0, by simp, by simp, by simpa using h⟩
        · exact ⟨i + 1, by simpa using h1, by simpa using h2, by simpa using h3⟩
      · rintro ⟨i, h1, h2, h3⟩
        cases i with
        | zero => left; simpa using h3
        | succ k => right; exact ⟨k, by simpa using h1, by simpa using h2, by simpa using h3⟩

/-- The early-return body of `is_meaningful_segment` for one track pair,
spelled as a proposition: a skipped (empty or all-`.`) wave contributes
nothing; otherwise either more than one distinct non-`.` token occurs, or
the first non-`.` token differs from the previous wave's last non-`.`
token. -/
theorem trackSignificant_iff (sig prevSig : SignalTrack) :
    trackSignificant sig prevSig = true ↔
      (sig.wave ≠ [] ∧ ¬ (∀ c ∈ sig.wave, c = '.')) ∧
        (1 < ((sig.wave.filter (fun c => c != '.')).dedup).length ∨
          ∃ f l, firstState sig.wave = some f ∧ lastState prevSig.wave = some l ∧
            f ≠ l) := by
  by_cases h1 : (sig.wave.isEmpty || sig.wave.all (fun c => c == '.')) = true
  · rw [trackSignificant]
    simp only [h1, if_true]
    constructor
    · intro habs; exact absurd habs (by simp)
    · rintro ⟨⟨hne, hnall⟩, -⟩
      rcases Bool.or_eq_true_iff.mp h1 with h | h
      · exact absurd (List.isEmpty_iff.mp h) hne
      · refine absurd ?_ hnall
        intro c hc
        have := List.all_eq_true.mp h c hc
        simpa using this
  · have hne : sig.wave ≠ [] := by
      intro hnil
      exact h1 (by simp [hnil])
    have hnall : ¬ (∀ c ∈ sig.wave, c = '.') := by
      intro hall
      refine h1 ?_
      simp only [Bool.or_eq_true]
      right
      rw [List.all_eq_true]
      intro c hc
      simpa using hall c hc
    rw [trackSignificant]
    rw [if_neg h1]
    by_cases h2 : 1 < ((sig.wave.filter (fun c => c != '.')).dedup).length
    · rw [if_pos h2]
      constructor
      · intro _; exact ⟨⟨hne, hnall⟩, Or.inl h2⟩
      · intro _; rfl
    · rw [if_neg h2]
      constructor
      · intro hm
        refine ⟨⟨hne, hnall⟩, Or.inr ?_⟩
        cases hf : firstState sig.wave with
        | none => rw [hf] at hm; cases hl : lastState prevSig.wave <;> simp [hl] at hm
        | some f =>
          cases hl : lastState prevSig.wave with
          | none => rw [hf, hl] at hm; simp at hm
          | some l =>
            rw [hf, hl] at hm
            exact ⟨f, l, rfl, rfl, by simpa [bne_iff_ne] using hm⟩
      · rintro ⟨-, h | ⟨f, l, hf, hl, hfl⟩⟩
        · exact absurd h h2
        · rw [hf, hl]
          simpa [bne_iff_ne] using hfl

/-- C3 (significance filter): `is_meaningful_segment` returns true exactly
when some positionally corresponding track pair has a segment wave that is
neither empty nor all-`.` and either shows more than one distinct non-`.`
token or whose first non-`.` token differs from the previous wave's last
non-`.` token. -/
theorem c3_significance_filter (segment previous : WaveformDescription) :
    is_meaningful_segment segment previous = true ↔
      ∃ i, i < segment.signal.length ∧ i < previous.signal.length ∧
        (((segment.signal.getD i default).wave ≠ [] ∧
            ¬ (∀ c ∈ (segment.signal.getD i default).wave, c = '.')) ∧
          (1 < (((segment.signal.getD i default).wave.filter
              (fun c => c != '.')).dedup).length ∨
            ∃ f l, firstState (segment.signal.getD i default).wave = some f ∧
              lastState (previous.signal.getD i default).wave = some l ∧ f ≠ l)) := by
  rw [is_meaningful_segment, any_zip_getD]
  constructor
  · rintro ⟨i, h1, h2, h3⟩
    exact ⟨i, h1, h2, (trackSignificant_iff _ _).mp h3⟩
  · rintro ⟨i, h1, h2, h3⟩
    exact ⟨i, h1, h2, (trackSignificant_iff _ _).mpr h3⟩

/-! ## Emitter lemmas -/

theorem htmlGo_ok (c : Collaborators) (pngOf : WaveformDescription → String)
    (h : ∀ s, (processSegment c s).1 = Except.ok (pngOf s)) :
    ∀ (segs : List WaveformDescription) (images : List String),
      (htmlGo c segs images).body =
        [Emission.inlineImages (images ++ segs.map pngOf)] := by
  intro segs
  induction segs with
  | nil => intro images; simp [htmlGo]
  | cons seg rest ih =>
    intro images
    have hps := h seg
    cases hp : processSegment c seg with
    | mk r lg =>
      rw [hp] at hps
      simp only at hps
      subst hps
      simp only [htmlGo, hp]
      rw [ih (images ++ [pngOf seg])]
      simp

theorem latexGo_ok (c : Collaborators) (pngOf : WaveformDescription → String)
    (h : ∀ s, (processSegment c s).1 = Except.ok (pngOf s)) :
    ∀ (segs : List WaveformDescription) (prevOpt : Option WaveformDescription),
      (latexGo c prevOpt segs).body =
        (significanceSelectFrom prevOpt segs).map
          (fun s => Emission.figure (pngOf s)) := by
  intro segs
  induction segs with
  | nil => intro prevOpt; simp [latexGo, significanceSelectFrom]
  | cons seg rest ih =>
    intro prevOpt
    cases prevOpt with
    | none =>
      have hps := h seg
      cases hp : processSegment c seg with
      | mk r lg =>
        rw [hp] at hps
        simp only at hps
        subst hps
        simp only [latexGo, latexSkip, Bool.false_eq_true, if_false, hp,
          significanceSelectFrom, if_true, List.map_cons]
        rw [ih (some seg)]
    | some prev =>
      by_cases hm : is_meaningful_segment seg prev = true
      · have hps := h seg
        cases hp : processSegment c seg with
        | mk r lg =>
          rw [hp] at hps
          simp only at hps
          subst hps
          simp only [latexGo, latexSkip, hm, Bool.not_true, Bool.false_eq_true,
            if_false, hp, significanceSelectFrom, if_true, List.map_cons]
          rw [ih (some seg)]
      · have hm' : is_meaningful_segment seg prev = false := by
          simpa using hm
        simp only [latexGo, latexSkip, hm', Bool.not_false, if_true,
          significanceSelectFrom, Bool.false_eq_true, if_false]
        exact ih (some seg)

/-- C5 (emitter policy asymmetry): with collaborators that succeed on every
segment, the HTML emitter's body holds every segment's image in order with
no filtering, while the LaTeX emitter's body holds exactly the figures of
the segments the significance policy keeps — the first segment always, a
later segment only if significant against its immediate predecessor; the
first segment is rendered under both policies. -/
theorem c5_emitter_policy_asymmetry (c : Collaborators)
    (pngOf : WaveformDescription → String)
    (h : ∀ s, (processSegment c s).1 = Except.ok (pngOf s))
    (segments : List WaveformDescription) :
    (htmlEmit c segments).body = [Emission.inlineImages (segments.map pngOf)]
    ∧ (latexEmit c segments).body =
        (pageFigureSelect segments).map (fun s => Emission.figure (pngOf s))
    ∧ (pageFigureSelect segments).headD default = segments.headD default
    ∧ (segments ≠ [] → pageFigureSelect segments ≠ []) := by
  refine ⟨?_, ?_, ?_, ?_⟩
  · rw [htmlEmit, htmlGo_ok c pngOf h segments []]
    simp
  · rw [latexEmit, latexGo_ok c pngOf h segments none, pageFigureSelect]
  · cases segments with
    | nil => rfl
    | cons s rest => simp [pageFigureSelect, significanceSelectFrom]
  · cases segments with
    | nil => intro hx; exact absurd rfl hx
    | cons s rest => intro _; simp [pageFigureSelect, significanceSelectFrom]

/-- Witness for C5: two segments whose second is a pure continuation; the
HTML emitter renders both, the LaTeX emitter only the first. -/
theorem c5_emitter_policy_asymmetry_witness :
    ((htmlEmit c5Collab [c5SegA, c5SegB]).body =
      [Emission.inlineImages ([c5SegA, c5SegB].map (fun _ => "S"))]
    ∧ (latexEmit c5Collab [c5SegA, c5SegB]).body =
        (pageFigureSelect [c5SegA, c5SegB]).map (fun s => Emission.figure "S")
    ∧ (pageFigureSelect [c5SegA, c5SegB]).headD default =
        [c5SegA, c5SegB].headD default
    ∧ ([c5SegA, c5SegB] ≠ ([] : List WaveformDescription) →
        pageFigureSelect [c5SegA, c5SegB] ≠ [])) :=
  c5_emitter_policy_asymmetry c5Collab (fun _ => "S") (fun _ => rfl)
    [c5SegA, c5SegB]

/-- C8 counterexample: with collaborators whose style post-process step
fails on every segment (while render and convert succeed), the HTML emitter
still renders both segments of a two-segment diagram, emits both images and
no error marker, and only logs the restyle failures — contradicting the
claim that a failure of any of the three steps aborts the diagram with a
visible error marker. -/
theorem c8_fail_fast_counterexample :
    htmlEmit c8Bad [c8Seg, c8Seg] =
      { body := [Emission.inlineImages ["svg", "svg"]],
        logs := ["Error adjusting SVG: boom", "Error adjusting SVG: boom"] } := by
  rfl

/-- C8 as amended: when the per-segment pipeline fails — which happens
exactly on a render or raster-convert failure — each emitter logs a
`WaveDrom error` diagnostic, appends only the in-place error marker to the
body, and abandons every remaining segment of the diagram; a restyle
failure alone is logged inside `adjust_svg` and the pipeline still
succeeds with the un-restyled image. -/
theorem c8_fail_fast_amended (c : Collaborators) (seg seg2 : WaveformDescription)
    (rest : List WaveformDescription) (images : List String)
    (prevOpt : Option WaveformDescription) (e e2 svg2 png2 : String)
    (lg : List String)
    (hfail : processSegment c seg = (Except.error e, lg))
    (hnoskip : latexSkip prevOpt seg = false)
    (hr2 : c.render seg2 = Except.ok svg2)
    (hs2 : c.restyle svg2 = Except.error e2)
    (hc2 : c.convert svg2 = Except.ok png2) :
    htmlGo c (seg :: rest) images =
      { body := [Emission.errorMarker e], logs := lg ++ ["WaveDrom error: " ++ e] }
    ∧ latexGo c prevOpt (seg :: rest) =
      { body := [Emission.errorMarker e], logs := lg ++ ["WaveDrom error: " ++ e] }
    ∧ processSegment c seg2 = (Except.ok png2, ["Error adjusting SVG: " ++ e2]) := by
  refine ⟨?_, ?_, ?_⟩
  · simp only [htmlGo, hfail]
  · simp only [latexGo, hnoskip, Bool.false_eq_true, if_false, hfail]
  · simp only [processSegment, hr2, adjust_svg, hs2, hc2]

/-- Witness for the amended C8: `c8C` fails to render the empty-signal
description `c8SegFail`; both emitters emit only the error marker and never
reach the following segment, while `c8SegOk` (restyle fails, render and
convert succeed) is processed successfully with only a log line. -/
theorem c8_fail_fast_amended_witness :
    (processSegment c8C c8SegFail = (Except.error "renderfail", []) ∧
      latexSkip none c8SegFail = false ∧
      c8C.render c8SegOk = Except.ok "svg" ∧
      c8C.restyle "svg" = Except.error "stylefail" ∧
      c8C.convert "svg" = Except.ok "svg") ∧
    (htmlGo c8C [c8SegFail, c8SegOk] [] =
      { body := [Emission.errorMarker "renderfail"],
        logs := [] ++ ["WaveDrom error: " ++ "renderfail"] }
    ∧ latexGo c8C none [c8SegFail, c8SegOk] =
      { body := [Emission.errorMarker "renderfail"],
        logs := [] ++ ["WaveDrom error: " ++ "renderfail"] }
    ∧ processSegment c8C c8SegOk =
        (Except.ok "svg", ["Error adjusting SVG: " ++ "stylefail"])) :=
  ⟨⟨rfl, rfl, rfl, rfl, rfl⟩,
    c8_fail_fast_amended c8C c8SegFail c8SegOk [c8SegOk] [] none
      "renderfail" "stylefail" "svg" "svg" [] rfl rfl rfl rfl rfl⟩

/-- C9 (duplicate-key rejection): a payload whose waveform object repeats a
key makes the modelled relaxed-JSON parse fail, and `WaveDromDirective.run`
returns only the reported error node — the diagram node that the visitors
(the only callers of segmentation) would consume is never produced, so
segmentation is never invoked and the build continues past the dropped
diagram. -/
theorem c9_duplicate_key_rejection (pairs : List (String × String))
    (hdup : ¬ (pairs.map Prod.fst).Nodup) :
    WaveDromDirective_run pairs =
      DirectiveResult.errorNode ("WaveJSON: " ++ "duplicate key") := by
  rw [WaveDromDirective_run, json5_loads, if_neg hdup]

/-- Witness for C9 at a payload repeating the key `signal`. -/
theorem c9_duplicate_key_rejection_witness :
    ¬ (c9Pairs.map Prod.fst).Nodup ∧
      WaveDromDirective_run c9Pairs =
        DirectiveResult.errorNode ("WaveJSON: " ++ "duplicate key") :=
  ⟨by decide, c9_duplicate_key_rejection c9Pairs (by decide)⟩
